import Mathlib

/-!
Shallow embedding of the interval-algebra core of `lisa/datautils.py`.

A pandas table with a numeric, strictly-increasing index is modelled as a
`List` of rows ordered by index.  Plain tables/series are `List (ℚ × α)`
(index value paired with the row's payload); duration-encoded tables as
used by `df_squash` are `List (SRow α)` carrying the index, the `delta`
column and the remaining columns as an opaque payload.

Operations that can raise a Python exception (`IndexError`, `KeyError`,
`ValueError`, `TypeError`, failed `assert`) return `Option`, with `none`
standing for "the call raises".
-/

namespace Datautils

/-- A row of a duration-encoded dataframe as consumed by `df_squash`:
`idx` is the time index, `delta` the duration column, `val` the remaining
columns collapsed into one opaque payload. -/
structure SRow (α : Type) where
  idx : ℚ
  delta : ℚ
  val : α
deriving DecidableEq

/-- Sum of the `delta` column of a duration-encoded table. -/
def sumDelta {α : Type} (l : List (SRow α)) : ℚ := (l.map SRow.delta).sum

/-- Embedding of `res_df.at[res_df.index[-1], column] = delta`: replace the
`delta` value of the last row (the index is unique in a well-formed table,
so only the final row is affected). -/
def setLastDelta {α : Type} : List (SRow α) → ℚ → List (SRow α)
  | [], _ => []
  | [r], d => [{ r with delta := d }]
  | r :: r' :: t, d => r :: setLastDelta (r' :: t) d

/-- The predicate of the label slice `df[start:end]` on a monotonic index:
rows whose index lies in `[s, e]`. -/
def inRangeB {α : Type} (s e : ℚ) (r : SRow α) : Bool :=
  decide (s ≤ r.idx) && decide (r.idx ≤ e)

/-- The synthetic boundary row of `df_squash` (lines 190–199 of
`datautils.py`): if the slice `df[:start]` is non-empty and no row sits
exactly at `start`, the last row before `start` is re-emitted at `start`
with duration `min(e1 - start, end - start)`, where `e1` is the first
index inside the window (or `end` when the window contains no row). -/
def mkSynth {α : Type} (prev middle : List (SRow α)) (s e : ℚ) : List (SRow α) :=
  match prev.getLast? with
  | none => []
  | some p =>
    if middle.any (fun r => decide (r.idx = s)) then []
    else
      [{ idx := s
         delta := min ((middle.headD { idx := e, delta := 0, val := p.val }).idx - s) (e - s)
         val := p.val }]

/-- Final assembly step of `df_squash` (lines 201–209 of `datautils.py`):
append the carried-through `middle` rows to the optional synthetic row,
then either drop every row colliding with `end`, or truncate the duration
of the last row to `min(end - its_index, its_delta)`. -/
def squashTail {α : Type} (synth middle : List (SRow α)) (e : ℚ) : List (SRow α) :=
  match middle with
  | [] => synth
  | m :: ms =>
    let res := synth ++ m :: ms
    if res.any (fun r => decide (r.idx = e)) then
      res.filter (fun r => decide (¬ r.idx = e))
    else
      setLastDelta res (min (e - (res.getLastD m).idx) (res.getLastD m).delta)

/-- Body of `df_squash` after the empty test and the clamp of `end`
(lines 187–211 of `datautils.py`): `prev = df[:start]`,
`middle = df[start:end]`, optional synthetic first row, then the final
assembly of `squashTail`. -/
def squashCore {α : Type} (df : List (SRow α)) (s e : ℚ) : List (SRow α) :=
  let prev := df.filter fun r => decide (r.idx ≤ s)
  let middle := df.filter (inRangeB s e)
  squashTail (mkSynth prev middle s e) middle e

/-- `df_squash(df, start, end, column='delta')` (lines 114–211 of
`datautils.py`): empty input is returned unchanged, `end` is clamped to
`last_index + last_delta`, an inverted window yields the empty table, and
otherwise the window content is assembled by `squashCore`. -/
def df_squash {α : Type} (df : List (SRow α)) (s e : ℚ) : List (SRow α) :=
  match df with
  | [] => []
  | r0 :: rest =>
    let lastR := (r0 :: rest).getLastD r0
    let e' := min e (lastR.idx + lastR.delta)
    if e' < s then []
    else squashCore (r0 :: rest) s e'

/-- The lookup policies passed to `pandas.Index.get_loc` by
`_data_window`. -/
inductive LocMethod
  | ffill
  | bfill
  | nearest
deriving DecidableEq

/-- The user-facing edge-matching methods of `series_window`/`df_window`. -/
inductive WinMethod
  | inclusive
  | exclusive
  | nearest
  | pre
  | post
deriving DecidableEq

/-- `index.get_loc(x, method='ffill')` on an ascending index: position of
the last index value `≤ x`, `none` (KeyError) if every value is above
`x`. -/
def locFfill : List ℚ → ℚ → Option Nat
  | [], _ => none
  | v :: rest, x =>
    if v ≤ x then
      match locFfill rest x with
      | some p => some (p + 1)
      | none => some 0
    else none

/-- `index.get_loc(x, method='bfill')` on an ascending index: position of
the first index value `≥ x`, `none` (KeyError) if every value is below
`x`. -/
def locBfill : List ℚ → ℚ → Option Nat
  | [], _ => none
  | v :: rest, x =>
    if x ≤ v then some 0
    else (locBfill rest x).map (· + 1)

/-- `index.get_loc(x, method='nearest')` on an ascending index: the closer
of the `ffill` and `bfill` candidates, ties resolved to the `bfill`
(larger) one, mirroring pandas' `_get_nearest_indexer`. -/
def locNearest (idx : List ℚ) (x : ℚ) : Option Nat :=
  match locFfill idx x, locBfill idx x with
  | some p, some q => if x - idx.getD p 0 < idx.getD q 0 - x then some p else some q
  | some p, none => some p
  | none, some q => some q
  | none, none => none

/-- Dispatch of `index.get_loc(x, method=...)`. -/
def getLoc (idx : List ℚ) (x : ℚ) : LocMethod → Option Nat
  | .ffill => locFfill idx x
  | .bfill => locBfill idx x
  | .nearest => locNearest idx x

/-- The `(start, end)` lookup-policy pair selected for each edge method in
`_data_window` (lines 523–544 of `datautils.py`). -/
def methodPair : WinMethod → LocMethod × LocMethod
  | .inclusive => (.ffill, .bfill)
  | .exclusive => (.bfill, .ffill)
  | .nearest => (.nearest, .nearest)
  | .pre => (.ffill, .ffill)
  | .post => (.bfill, .bfill)

/-- The predicate of the native label slice `data[slice(start, end)]` on a
monotonic `Float64Index`: a `none` bound imposes no constraint. -/
def inWin (s? e? : Option ℚ) (x : ℚ) : Bool :=
  (match s? with
   | none => true
   | some s => decide (s ≤ x)) &&
  (match e? with
   | none => true
   | some e => decide (x ≤ e))

/-- The `clip_window` preamble of `_data_window` (lines 494–521 of
`datautils.py`): `None` bounds become the index extremities, a window
entirely on one side of the data collapses to the matching extremity, and
otherwise each bound is clamped independently.  `none` models the
`IndexError` raised by `index[0]` on an empty index. -/
def clipWin (index : List ℚ) (w : Option ℚ × Option ℚ) : Option (ℚ × ℚ) :=
  match index with
  | [] => none
  | i0 :: _ =>
    let first := i0
    let last := index.getLastD i0
    let s := w.1.getD first
    let e := w.2.getD last
    if s ≤ first ∧ e ≤ first then some (first, first)
    else if last ≤ s ∧ last ≤ e then some (last, last)
    else some (max s first, min e last)

/-- `_data_window(data, window, method, clip_window)` (lines 488–552 of
`datautils.py`).  `floatIndex` records `isinstance(data.index,
pd.Float64Index)`, which selects the native slicing fast path for the
`inclusive` method.  On the generic path, a missing `end` bound reproduces
the `window[1] + 1` `TypeError` and a failed `get_loc` the `KeyError`,
both modelled as `none`. -/
def _data_window {α : Type} (data : List (ℚ × α)) (w : Option ℚ × Option ℚ)
    (method : WinMethod) (clipWindow floatIndex : Bool) : Option (List (ℚ × α)) :=
  let index := data.map Prod.fst
  let win? : Option (Option ℚ × Option ℚ) :=
    if clipWindow then (clipWin index w).map (fun p => (some p.1, some p.2))
    else some w
  match win? with
  | none => none
  | some (s?, e?) =>
    if floatIndex && (method == .inclusive) then
      some (data.filter (fun r => inWin s? e? r.1))
    else
      let pair := methodPair method
      match e? with
      | none => none
      | some e =>
        match getLoc index e pair.2 with
        | none => none
        | some q =>
          match s? with
          | none => some (data.take (q + 1))
          | some s =>
            match getLoc index s pair.1 with
            | none => none
            | some p => some ((data.drop p).take (q + 1 - p))

/-- `series_window(series, window, method='inclusive', clip_window=True)`. -/
def series_window {α : Type} (data : List (ℚ × α)) (w : Option ℚ × Option ℚ)
    (method : WinMethod := .inclusive) (clipWindow : Bool := true)
    (floatIndex : Bool := true) : Option (List (ℚ × α)) :=
  _data_window data w method clipWindow floatIndex

/-- `df_window(df, window, method='inclusive', clip_window=True)`. -/
def df_window {α : Type} (data : List (ℚ × α)) (w : Option ℚ × Option ℚ)
    (method : WinMethod := .inclusive) (clipWindow : Bool := true)
    (floatIndex : Bool := true) : Option (List (ℚ × α)) :=
  _data_window data w method clipWindow floatIndex

/-- `index.iloc[0] = start`: overwrite the index value of the first row. -/
def setFirstIdx {α : Type} : List (ℚ × α) → ℚ → List (ℚ × α)
  | [], _ => []
  | r :: t, v => (v, r.2) :: t

/-- `index.iloc[-1] = end`: overwrite the index value of the last row. -/
def setLastIdx {α : Type} : List (ℚ × α) → ℚ → List (ℚ × α)
  | [], _ => []
  | [r], v => [(v, r.2)]
  | r :: r' :: t, v => r :: setLastIdx (r' :: t) v

/-- `_data_refit_index(data, start, end, method)` (lines 92–111 of
`datautils.py`): empty data is returned unchanged; otherwise the data is
windowed with `clip_window=True`, the last index value is overwritten with
`end` (if given) and then the first with `start` (if given), `start` last
so that a single-row result keeps it.  `iloc[-1]`/`iloc[0]` on an empty
selection raise `IndexError`, modelled as `none`. -/
def _data_refit_index {α : Type} (data : List (ℚ × α)) (s? e? : Option ℚ)
    (method : WinMethod) (floatIndex : Bool) : Option (List (ℚ × α)) :=
  match data with
  | [] => some data
  | _ :: _ => do
    let d ← _data_window data (s?, e?) method true floatIndex
    let d ←
      match e? with
      | none => some d
      | some e =>
        match d with
        | [] => none
        | _ :: _ => some (setLastIdx d e)
    match s? with
    | none => some d
    | some s =>
      match d with
      | [] => none
      | _ :: _ => some (setFirstIdx d s)

/-- `series_refit_index(series, start=None, end=None, method='inclusive')`. -/
def series_refit_index {α : Type} (data : List (ℚ × α)) (s? e? : Option ℚ)
    (method : WinMethod := .inclusive) (floatIndex : Bool := true) :
    Option (List (ℚ × α)) :=
  _data_refit_index data s? e? method floatIndex

/-- `df_refit_index(df, start=None, end=None, method='inclusive')`. -/
def df_refit_index {α : Type} (data : List (ℚ × α)) (s? e? : Option ℚ)
    (method : WinMethod := .inclusive) (floatIndex : Bool := true) :
    Option (List (ℚ × α)) :=
  _data_refit_index data s? e? method floatIndex

/-- The `keep` policy of the deduplicators. -/
inductive Keep
  | first
  | last
deriving DecidableEq

/-- `cond = data != data.shift(1)` filtering for a series with
`keep='first'`: an element survives when it differs from its predecessor
(the first element always survives, its comparison partner being `NaN`). -/
def keepFirstAux {α : Type} [DecidableEq α] : α → List α → List α
  | _, [] => []
  | prev, b :: t => if b = prev then keepFirstAux b t else b :: keepFirstAux b t

/-- Consecutive deduplication keeping the first of each run. -/
def keepFirstConsec {α : Type} [DecidableEq α] : List α → List α
  | [] => []
  | a :: t => a :: keepFirstAux a t

/-- `cond = data != data.shift(-1)` filtering for a series with
`keep='last'`: an element survives when it differs from its successor (the
last element always survives). -/
def keepLastConsec {α : Type} [DecidableEq α] : List α → List α
  | [] => []
  | [a] => [a]
  | a :: b :: t => if a = b then keepLastConsec (b :: t) else a :: keepLastConsec (b :: t)

/-- `drop_duplicates(keep='first')` on projections: keep a row when no
earlier row has the same projection. -/
def dropDupFirstAux {α β : Type} [DecidableEq β] (proj : α → β) :
    List β → List α → List α
  | _, [] => []
  | seen, r :: t =>
    if proj r ∈ seen then dropDupFirstAux proj seen t
    else r :: dropDupFirstAux proj (proj r :: seen) t

/-- `drop_duplicates(keep='last')` on projections: keep a row when no
later row has the same projection. -/
def dropDupLast {α β : Type} [DecidableEq β] (proj : α → β) : List α → List α
  | [] => []
  | r :: t =>
    if proj r ∈ t.map proj then dropDupLast proj t
    else r :: dropDupLast proj t

/-- `data.drop_duplicates(keep=...)` on projections of the rows. -/
def dropDuplicates {α β : Type} [DecidableEq β] (proj : α → β) (keep : Keep)
    (l : List α) : List α :=
  match keep with
  | .first => dropDupFirstAux proj [] l
  | .last => dropDupLast proj l

/-- `_data_deduplicate(data, keep, consecutives, cols, all_col)`
specialised to a series (lines 825–857 of `datautils.py`): `cols` is
always `None` for a series, and `all_col` is whatever the caller passed
(`series_deduplicate` passes `None`).  With `consecutives=False` a falsy
`all_col` (either `False` or `None`) raises `ValueError`, modelled as
`none`. -/
def _data_deduplicate_series {α : Type} [DecidableEq α] (data : List α)
    (keep : Keep) (consecutives : Bool) (allCol : Option Bool) : Option (List α) :=
  if consecutives then
    some (match keep with
          | .first => keepFirstConsec data
          | .last => keepLastConsec data)
  else if allCol.getD false = false then none
  else some (dropDuplicates id keep data)

/-- `series_deduplicate(series, keep, consecutives)` (lines 860–880 of
`datautils.py`): forwards to `_data_deduplicate` with `cols=None,
all_col=None`. -/
def series_deduplicate {α : Type} [DecidableEq α] (data : List α) (keep : Keep)
    (consecutives : Bool) : Option (List α) :=
  _data_deduplicate_series data keep consecutives none

/-- Projection of a dataframe row (a list of column values) onto the
`cols` subset considered for deduplication; `none` keeps every column. -/
def projCols (cols : Option (List Nat)) (row : List ℚ) : List ℚ :=
  match cols with
  | none => row
  | some cs => cs.map (fun c => row.getD c 0)

/-- The per-row combination of the `cond` column mask in
`_data_deduplicate` for a dataframe: with `all_col=True` a row survives
when ANY considered column differs from its shifted partner, with
`all_col=False` only when ALL of them differ. -/
def rowCond (a b : List ℚ) (allCol : Bool) : Bool :=
  let diffs := List.zipWith (fun x y => decide (¬ x = y)) a b
  if allCol then diffs.any id else diffs.all id

/-- Consecutive dataframe deduplication with `keep='first'`: compare each
row's projection with its predecessor's. -/
def dfKeepFirstAux (cols : Option (List Nat)) (allCol : Bool) :
    List ℚ → List (List ℚ) → List (List ℚ)
  | _, [] => []
  | prev, r :: t =>
    if rowCond (projCols cols r) prev allCol then
      r :: dfKeepFirstAux cols allCol (projCols cols r) t
    else dfKeepFirstAux cols allCol (projCols cols r) t

/-- Consecutive dataframe deduplication with `keep='first'` (the first row
always survives, its comparison partner being the `NaN` row). -/
def dfKeepFirstConsec (cols : Option (List Nat)) (allCol : Bool) :
    List (List ℚ) → List (List ℚ)
  | [] => []
  | r :: t => r :: dfKeepFirstAux cols allCol (projCols cols r) t

/-- Consecutive dataframe deduplication with `keep='last'`: compare each
row's projection with its successor's; the last row always survives. -/
def dfKeepLastConsec (cols : Option (List Nat)) (allCol : Bool) :
    List (List ℚ) → List (List ℚ)
  | [] => []
  | [r] => [r]
  | r :: r' :: t =>
    if rowCond (projCols cols r) (projCols cols r') allCol then
      r :: dfKeepLastConsec cols allCol (r' :: t)
    else dfKeepLastConsec cols allCol (r' :: t)

/-- `df_deduplicate(df, keep, consecutives, cols=None, all_col=True)`
(lines 883–895 of `datautils.py`), rows modelled as lists of column
values. -/
def df_deduplicate (rows : List (List ℚ)) (keep : Keep) (consecutives : Bool)
    (cols : Option (List Nat)) (allCol : Bool) : Option (List (List ℚ)) :=
  if consecutives then
    some (match keep with
          | .first => dfKeepFirstConsec cols allCol rows
          | .last => dfKeepLastConsec cols allCol rows)
  else if allCol = false then none
  else some (dropDuplicates (projCols cols) keep rows)

/-- Python `int()` conversion of a rational: truncation toward zero. -/
def intTrunc (q : ℚ) : ℤ := if 0 ≤ q then ⌊q⌋ else ⌈q⌉

/-- The `max_shift` capping step of `series_align_signal` (lines 673–687
of `datautils.py`): `shift` is the integer sample shift computed by the
cross-correlation argmax, `period` the common resampling period.  The cap
is converted to samples with `int(max_shift / period)`, given the sign of
`shift`, and replaces `shift` when smaller in magnitude.  A negative
`max_shift` fails the `assert`, modelled as `none`. -/
def alignCapShift (shift : ℤ) (maxShift? : Option ℚ) (period : ℚ) : Option ℤ :=
  match maxShift? with
  | none => some shift
  | some maxShift =>
    if maxShift < 0 then none
    else
      let m := intTrunc (maxShift / period)
      let mSigned := if shift < 0 then -m else m
      if |shift| > |mSigned| then some mSigned else some shift

/-- The worked example of the `df_squash` docstring: columns
`(Time, len, state)`. -/
def exTable : List (SRow ℤ) := [⟨15, 1, 1⟩, ⟨16, 1, 0⟩, ⟨17, 1, 1⟩, ⟨18, 1, 0⟩]

/-- Gap-free invariant of a duration-encoded table: each row is followed
by a row exactly `delta` later. -/
def GapFree {α : Type} (df : List (SRow α)) : Prop :=
  List.Chain' (fun r r' => r'.idx = r.idx + r.delta) df

/-- Strictly-increasing index invariant of a duration-encoded table. -/
def SortedIdx {α : Type} (df : List (SRow α)) : Prop :=
  List.Pairwise (fun r r' => r.idx < r'.idx) df

/-- Strictly-increasing index invariant of a plain table. -/
def SortedFst {α : Type} (data : List (ℚ × α)) : Prop :=
  List.Pairwise (fun r r' => r.1 < r'.1) data

/-- A list is an untouched contiguous block of another. -/
def IsSubSlice {α : Type} (l₁ l₂ : List α) : Prop :=
  ∃ before after, l₂ = before ++ l₁ ++ after

end Datautils

namespace Datautils

/-! ### Derived form of the alignment shift cap -/

/-- The shift actually applied by `series_align_signal` when a `max_shift`
cap is supplied: the computed `shift` unless its magnitude exceeds the cap
converted to samples, in which case the sign-adjusted converted cap. -/
def appliedShift (shift : ℤ) (ms period : ℚ) : ℤ :=
  let m := intTrunc (ms / period)
  let mSigned := if shift < 0 then -m else m
  if |shift| > |mSigned| then mSigned else shift

/-! ### C2 -/

/-- C2: Squash worked example: squashing the docstring table to
`(16.5, 17.5)` returns exactly the rows `(16.5, 0.5, 0), (17, 0.5, 1)`,
and squashing it to `(16.2, 16.8)` returns exactly `(16.2, 0.6, 0)`. -/
theorem c2_squash_worked_example :
    df_squash exTable (33/2) (35/2) = [⟨33/2, 1/2, 0⟩, ⟨17, 1/2, 1⟩] ∧
    df_squash exTable (81/5) (84/5) = [⟨81/5, 3/5, 0⟩] := by
  constructor <;>
    norm_num [df_squash, squashCore, squashTail, mkSynth, inRangeB, setLastDelta, exTable]

/-! ### C7 -/

/-- C7: Dedup round trip: on the series `[1,2,2,3,4,2]` with
`keep='first'`, the consecutive mode returns `[1,2,3,4,2]` as claimed, but
the global mode (`consecutives=False`) raises `ValueError` instead of
returning `[1,2,3,4]`, because `series_deduplicate` forwards
`all_col=None` and `_data_deduplicate` rejects any falsy `all_col` in that
mode — contradicting the function's own docstring example. -/
theorem c7_dedup_round_trip :
    series_deduplicate ([1, 2, 2, 3, 4, 2] : List ℤ) .first true = some [1, 2, 3, 4, 2] ∧
    series_deduplicate ([1, 2, 2, 3, 4, 2] : List ℤ) .first false = none := by
  exact ⟨rfl, rfl⟩

/-! ### C6 -/

/-- C6 counterexample: windowing an empty table with the default
`clip_window=True` raises `IndexError` (from `index[0]`) instead of
returning an empty result, for `series_window`/`df_window` alike. -/
theorem c6_counterexample_empty_window_raises :
    _data_window ([] : List (ℚ × ℤ)) (some 0, some 1) .inclusive true true = none := rfl

/-- C6 (amended): `df_squash`, `series_refit_index`/`df_refit_index` and
the consecutive deduplication modes return an empty result unchanged on an
empty table; `series_deduplicate` with `consecutives=False` fails on any
input (including the empty one), `df_deduplicate` with
`consecutives=False` fails exactly when `all_col=False`, and
`series_window`/`df_window` fail on an empty table whenever
`clip_window=True`, returning an empty result only on the
`inclusive`/float-index fast path with `clip_window=False`. -/
theorem c6_empty_input_amended :
    (∀ s e : ℚ, df_squash ([] : List (SRow ℤ)) s e = []) ∧
    (∀ (s? e? : Option ℚ) (m : WinMethod) (fl : Bool),
      _data_refit_index ([] : List (ℚ × ℤ)) s? e? m fl = some []) ∧
    (∀ k : Keep, series_deduplicate ([] : List ℤ) k true = some []) ∧
    (∀ k : Keep, series_deduplicate ([] : List ℤ) k false = none) ∧
    (∀ (k : Keep) (cols : Option (List Nat)) (ac : Bool),
      df_deduplicate [] k true cols ac = some []) ∧
    (∀ (k : Keep) (cols : Option (List Nat)),
      df_deduplicate [] k false cols true = some [] ∧
        df_deduplicate [] k false cols false = none) ∧
    (∀ (w : Option ℚ × Option ℚ) (m : WinMethod) (fl : Bool),
      _data_window ([] : List (ℚ × ℤ)) w m true fl = none) ∧
    (∀ s? e? : Option ℚ,
      _data_window ([] : List (ℚ × ℤ)) (s?, e?) .inclusive false true = some []) := by
  refine ⟨fun s e => rfl, fun s? e? m fl => rfl, fun k => ?_, fun k => rfl,
    fun k cols ac => ?_, fun k cols => ⟨?_, rfl⟩, fun w m fl => rfl, fun s? e? => rfl⟩
  · cases k <;> rfl
  · cases k <;> rfl
  · cases k <;> rfl

/-! ### C9 -/

/-- C9 counterexample: with computed shift `-1`, `max_shift = 1/2` and
resampling period `1`, the cap takes effect (`int(0.5 / 1) = 0` samples)
and the applied shift is `0`, whose sign differs from the sign of the
uncapped shift `-1` — refuting the claim that a capped shift always keeps
the computed shift's sign. -/
theorem c9_counterexample_sign_lost :
    alignCapShift (-1) (some (1/2)) 1 = some 0 ∧ Int.sign 0 ≠ Int.sign (-1 : ℤ) := by
  constructor
  · norm_num [alignCapShift, intTrunc]
  · decide

/-- C9 (amended): for `max_shift ≥ 0` and a positive resampling period,
`series_align_signal`'s capping step succeeds and applies a shift whose
magnitude never exceeds `⌊max_shift / period⌋` samples (hence at most
`max_shift` in index units), whose direction never opposes the computed
shift, and which, whenever the cap takes effect, equals
`sign(shift) · ⌊max_shift / period⌋` — in particular it keeps the computed
shift's sign whenever that floor is non-zero, and collapses to `0` when
`max_shift < period`. -/
theorem c9_alignment_boundedness_amended (shift : ℤ) (ms period : ℚ)
    (h0 : 0 ≤ ms) (hp : 0 < period) :
    alignCapShift shift (some ms) period = some (appliedShift shift ms period) ∧
    |appliedShift shift ms period| ≤ ⌊ms / period⌋ ∧
    (|appliedShift shift ms period| : ℚ) * period ≤ ms ∧
    0 ≤ appliedShift shift ms period * shift ∧
    (appliedShift shift ms period ≠ shift →
      appliedShift shift ms period = Int.sign shift * ⌊ms / period⌋) := by
  have hdiv : (0 : ℚ) ≤ ms / period := div_nonneg h0 hp.le
  have hm : intTrunc (ms / period) = ⌊ms / period⌋ := if_pos hdiv
  have hm0 : (0 : ℤ) ≤ ⌊ms / period⌋ := Int.floor_nonneg.mpr hdiv
  have hmul : (⌊ms / period⌋ : ℚ) * period ≤ ms := by
    have h1 : (⌊ms / period⌋ : ℚ) ≤ ms / period := Int.floor_le _
    calc (⌊ms / period⌋ : ℚ) * period ≤ (ms / period) * period :=
          mul_le_mul_of_nonneg_right h1 hp.le
      _ = ms := div_mul_cancel₀ ms hp.ne'
  have heq : alignCapShift shift (some ms) period = some (appliedShift shift ms period) := by
    simp only [alignCapShift, appliedShift]
    rw [if_neg (not_lt.mpr h0)]
    rw [apply_ite some, apply_ite some, apply_ite some]
  refine ⟨heq, ?_⟩
  simp only [appliedShift, hm]
  by_cases hneg : shift < 0
  · rw [if_pos hneg, abs_neg, abs_of_nonneg hm0]
    by_cases hc : ⌊ms / period⌋ < |shift|
    · rw [if_pos hc]
      refine ⟨?_, ?_, ?_, ?_⟩
      · rw [abs_neg]
        exact le_of_eq (abs_of_nonneg hm0)
      · rw [Int.cast_neg, abs_neg,
          abs_of_nonneg (show (0 : ℚ) ≤ (⌊ms / period⌋ : ℤ) by exact_mod_cast hm0)]
        exact hmul
      · exact mul_nonneg_of_nonpos_of_nonpos (neg_nonpos.mpr hm0) hneg.le
      · intro _
        rw [Int.sign_eq_neg_one_of_neg hneg]
        ring
    · rw [if_neg hc]
      have hle : |shift| ≤ ⌊ms / period⌋ := not_lt.mp hc
      refine ⟨hle, ?_, mul_self_nonneg shift, fun h => absurd rfl h⟩
      calc (|shift| : ℚ) * period ≤ (⌊ms / period⌋ : ℚ) * period :=
            mul_le_mul_of_nonneg_right (by exact_mod_cast hle) hp.le
        _ ≤ ms := hmul
  · rw [if_neg hneg, abs_of_nonneg hm0]
    by_cases hc : ⌊ms / period⌋ < |shift|
    · rw [if_pos hc]
      have hge : 0 ≤ shift := not_lt.mp hneg
      have hs0 : 0 < shift := by
        rcases hge.lt_or_eq with h | h
        · exact h
        · exfalso
          rw [← h, abs_zero] at hc
          omega
      refine ⟨le_of_eq (abs_of_nonneg hm0), ?_, mul_nonneg hm0 hge, ?_⟩
      · rw [abs_of_nonneg (show (0 : ℚ) ≤ (⌊ms / period⌋ : ℤ) by exact_mod_cast hm0)]
        exact hmul
      · intro _
        rw [Int.sign_eq_one_of_pos hs0]
        ring
    · rw [if_neg hc]
      have hle : |shift| ≤ ⌊ms / period⌋ := not_lt.mp hc
      refine ⟨hle, ?_, mul_self_nonneg shift, fun h => absurd rfl h⟩
      calc (|shift| : ℚ) * period ≤ (⌊ms / period⌋ : ℚ) * period :=
            mul_le_mul_of_nonneg_right (by exact_mod_cast hle) hp.le
        _ ≤ ms := hmul

/-- C9 witness: the amended capping theorem instantiated at shift `5`,
`max_shift = 3`, period `1`. -/
theorem c9_witness :
    alignCapShift 5 (some 3) 1 = some (appliedShift 5 3 1) ∧
    |appliedShift 5 3 1| ≤ ⌊(3 : ℚ) / 1⌋ ∧
    (|appliedShift 5 3 1| : ℚ) * 1 ≤ 3 ∧
    0 ≤ appliedShift 5 3 1 * 5 ∧
    (appliedShift 5 3 1 ≠ 5 → appliedShift 5 3 1 = Int.sign 5 * ⌊(3 : ℚ) / 1⌋) :=
  c9_alignment_boundedness_amended 5 3 1 (by norm_num) (by norm_num)

end Datautils

namespace Datautils

/-! ### Index helpers for plain tables -/

/-- First index value of a plain table (`0` for the empty table). -/
def headIdx {α : Type} (l : List (ℚ × α)) : ℚ := (l.map Prod.fst).headD 0

/-- Last index value of a plain table (`0` for the empty table). -/
def lastIdx {α : Type} (l : List (ℚ × α)) : ℚ := (l.map Prod.fst).getLastD 0

theorem lastIdx_cons_cons {α : Type} (a b : ℚ × α) (t : List (ℚ × α)) :
    lastIdx (a :: b :: t) = lastIdx (b :: t) := by
  simp [lastIdx, List.getLastD_cons]

theorem lastIdx_cons_of_ne {α : Type} (a : ℚ × α) (l : List (ℚ × α)) (h : l ≠ []) :
    lastIdx (a :: l) = lastIdx l := by
  cases l with
  | nil => exact absurd rfl h
  | cons b t => exact lastIdx_cons_cons a b t

theorem setFirstIdx_ne_nil {α : Type} (l : List (ℚ × α)) (v : ℚ) (h : l ≠ []) :
    setFirstIdx l v ≠ [] := by
  cases l with
  | nil => exact absurd rfl h
  | cons a t => simp [setFirstIdx]

theorem headIdx_setFirstIdx {α : Type} (l : List (ℚ × α)) (v : ℚ) (h : l ≠ []) :
    headIdx (setFirstIdx l v) = v := by
  cases l with
  | nil => exact absurd rfl h
  | cons a t => simp [setFirstIdx, headIdx]

theorem length_setFirstIdx {α : Type} (l : List (ℚ × α)) (v : ℚ) :
    (setFirstIdx l v).length = l.length := by
  cases l <;> simp [setFirstIdx]

theorem lastIdx_setFirstIdx {α : Type} (l : List (ℚ × α)) (v : ℚ) (h : 1 < l.length) :
    lastIdx (setFirstIdx l v) = lastIdx l := by
  match l with
  | [] => simp at h
  | [a] => simp at h
  | a :: b :: t =>
    show lastIdx ((v, a.2) :: b :: t) = lastIdx (a :: b :: t)
    rw [lastIdx_cons_cons, lastIdx_cons_cons]

theorem setLastIdx_ne_nil {α : Type} (l : List (ℚ × α)) (v : ℚ) (h : l ≠ []) :
    setLastIdx l v ≠ [] := by
  match l with
  | [] => exact absurd rfl h
  | [a] => simp [setLastIdx]
  | a :: b :: t => simp [setLastIdx]

theorem length_setLastIdx {α : Type} (l : List (ℚ × α)) (v : ℚ) :
    (setLastIdx l v).length = l.length := by
  induction l with
  | nil => rfl
  | cons a t ih =>
    cases t with
    | nil => rfl
    | cons b t' =>
      show (a :: setLastIdx (b :: t') v).length = (a :: b :: t').length
      simp only [List.length_cons, ih]

theorem lastIdx_setLastIdx {α : Type} (l : List (ℚ × α)) (v : ℚ) (h : l ≠ []) :
    lastIdx (setLastIdx l v) = v := by
  induction l with
  | nil => exact absurd rfl h
  | cons a t ih =>
    cases t with
    | nil => simp [setLastIdx, lastIdx]
    | cons b t' =>
      show lastIdx (a :: setLastIdx (b :: t') v) = v
      rw [lastIdx_cons_of_ne _ _ (setLastIdx_ne_nil _ v (by simp))]
      exact ih (by simp)

theorem headIdx_setLastIdx {α : Type} (l : List (ℚ × α)) (v : ℚ) (h : 1 < l.length) :
    headIdx (setLastIdx l v) = headIdx l := by
  match l with
  | [] => simp at h
  | [a] => simp at h
  | a :: b :: t =>
    show headIdx (a :: setLastIdx (b :: t) v) = headIdx (a :: b :: t)
    simp [headIdx]

/-! ### C4 -/

/-- C4 counterexample: refitting the one-row table `[(0, v)]` to
`start = -1, end = 1` (a window overlapping its range) returns the single
row re-indexed at `start = -1`: the last index value is `-1`, not the
supplied `end = 1`, because `start` is applied last and overwrites the
only row. -/
theorem c4_counterexample_single_row :
    df_refit_index [((0 : ℚ), (0 : ℤ))] (some (-1)) (some 1) .inclusive true =
      some [(-1, 0)] ∧
    lastIdx [((-1 : ℚ), (0 : ℤ))] ≠ 1 := by
  constructor
  · norm_num [df_refit_index, _data_refit_index, _data_window, clipWin, inWin,
      setLastIdx, setFirstIdx]
  · norm_num [lastIdx]

/-- C4 (amended): for a non-empty table, whenever
`series_refit_index`/`df_refit_index` returns a table at all, the first
index value equals `start` when `start` was supplied, and the last index
value equals `end` when `end` was supplied — except that a single-row
result with both bounds supplied keeps `start` (the code applies `start`
last); moreover an empty window selection (possible on the float-index
fast path) makes the operation raise `IndexError` rather than return. -/
theorem c4_refit_exactness_amended {α : Type} (data : List (ℚ × α))
    (hne : data ≠ []) (s? e? : Option ℚ) (method : WinMethod) (fl : Bool)
    (r : List (ℚ × α)) (h : _data_refit_index data s? e? method fl = some r) :
    (∀ s, s? = some s → r ≠ [] ∧ headIdx r = s) ∧
    (∀ e, e? = some e → (s? = none ∨ 1 < r.length) → r ≠ [] ∧ lastIdx r = e) := by
  cases data with
  | nil => exact absurd rfl hne
  | cons d0 dt =>
    unfold _data_refit_index at h
    cases hw : _data_window (d0 :: dt) (s?, e?) method true fl with
    | none =>
      rw [hw] at h
      simp at h
    | some d =>
      rw [hw] at h
      simp only [Option.bind_eq_bind, Option.some_bind] at h
      cases e? with
      | none =>
        simp only [Option.some_bind] at h
        cases s? with
        | none =>
          refine ⟨fun s hs => by simp at hs, fun e he _ => by simp at he⟩
        | some s =>
          cases d with
          | nil => simp at h
          | cons x xs =>
            simp only [Option.some_inj] at h
            subst h
            refine ⟨fun s' hs => ?_, fun e he _ => by simp at he⟩
            obtain rfl : s' = s := by simpa using hs.symm
            exact ⟨setFirstIdx_ne_nil _ _ (by simp),
              headIdx_setFirstIdx _ _ (by simp)⟩
      | some e =>
        cases d with
        | nil => simp at h
        | cons x xs =>
          simp only [Option.some_bind] at h
          cases s? with
          | none =>
            simp only [Option.some_inj] at h
            subst h
            refine ⟨fun s hs => by simp at hs, fun e' he _ => ?_⟩
            obtain rfl : e' = e := by simpa using he.symm
            exact ⟨setLastIdx_ne_nil _ _ (by simp),
              lastIdx_setLastIdx _ _ (by simp)⟩
          | some s =>
            cases hd : setLastIdx (x :: xs) e with
            | nil => exact absurd hd (setLastIdx_ne_nil _ _ (by simp))
            | cons y ys =>
              rw [hd] at h
              simp only [Option.some_inj] at h
              subst h
              constructor
              · intro s' hs
                obtain rfl : s' = s := by simpa using hs.symm
                exact ⟨setFirstIdx_ne_nil _ _ (by simp),
                  headIdx_setFirstIdx _ _ (by simp)⟩
              · intro e' he hlen
                obtain rfl : e' = e := by simpa using he.symm
                rcases hlen with hcontra | hlen
                · simp at hcontra
                · refine ⟨setFirstIdx_ne_nil _ _ (by simp), ?_⟩
                  rw [length_setFirstIdx] at hlen
                  rw [lastIdx_setFirstIdx _ _ hlen, ← hd,
                    lastIdx_setLastIdx _ _ (by simp)]

/-- C4 witness: refitting `[(0,·),(10,·)]` to `(3, 4)` on the generic
lookup path returns `[(3,·),(4,·)]`, whose first index is the supplied
`start`. -/
theorem c4_witness :
    ([((3 : ℚ), (0 : ℤ)), (4, 0)] : List (ℚ × ℤ)) ≠ [] ∧
    headIdx ([((3 : ℚ), (0 : ℤ)), (4, 0)] : List (ℚ × ℤ)) = 3 :=
  (c4_refit_exactness_amended [((0 : ℚ), (0 : ℤ)), (10, 0)] (by simp)
    (some 3) (some 4) .inclusive false [((3 : ℚ), (0 : ℤ)), (4, 0)]
    (by norm_num [_data_refit_index, _data_window, clipWin, getLoc, methodPair,
      locFfill, locBfill, setLastIdx, setFirstIdx, List.take, List.drop])).1 3 rfl

end Datautils

namespace Datautils

/-! ### Order lemmas for duration-encoded tables -/

theorem chainLt_of_gapFree {α : Type} :
    ∀ (df : List (SRow α)), GapFree df → (∀ r ∈ df, 0 < r.delta) →
      List.Chain' (fun r r' : SRow α => r.idx < r'.idx) df
  | [], _, _ => List.chain'_nil
  | [_], _, _ => by simp
  | a :: b :: t, hgf, hpos => by
    rw [GapFree, List.chain'_cons] at hgf
    rw [List.chain'_cons]
    refine ⟨?_, chainLt_of_gapFree (b :: t) hgf.2
      (fun r hr => hpos r (List.mem_cons_of_mem a hr))⟩
    have hd : 0 < a.delta := hpos a (by simp)
    rw [hgf.1]
    linarith

theorem sortedIdx_of_gapFree {α : Type} (df : List (SRow α)) (hgf : GapFree df)
    (hpos : ∀ r ∈ df, 0 < r.delta) : SortedIdx df := by
  haveI : IsTrans (SRow α) (fun r r' : SRow α => r.idx < r'.idx) :=
    ⟨fun _ _ _ h1 h2 => lt_trans h1 h2⟩
  exact List.chain'_iff_pairwise.mp (chainLt_of_gapFree df hgf hpos)

theorem getLastD_mem {β : Type} :
    ∀ (l : List β) (d : β), l ≠ [] → l.getLastD d ∈ l
  | [], _, h => absurd rfl h
  | [a], d, _ => by simp
  | a :: b :: t, d, _ => by
    rw [List.getLastD_cons]
    exact List.mem_cons_of_mem a (getLastD_mem (b :: t) a (by simp))

theorem le_getLastD_idx {α : Type} :
    ∀ (l : List (SRow α)), SortedIdx l → ∀ x ∈ l, ∀ d : SRow α,
      x.idx ≤ (l.getLastD d).idx
  | [], _, x, hx, _ => absurd hx (by simp)
  | a :: t, hso, x, hx, d => by
    rw [List.getLastD_cons]
    cases t with
    | nil =>
      simp only [List.mem_singleton] at hx
      subst hx
      simp
    | cons b t' =>
      rcases List.mem_cons.mp hx with hxa | hxt
      · subst hxa
        have hmem := getLastD_mem (b :: t') x (by simp)
        exact ((List.pairwise_cons.mp hso).1 _ hmem).le
      · exact le_getLastD_idx (b :: t') (List.pairwise_cons.mp hso).2 x hxt a

/-! ### C3 -/

/-- C3: Squash end-collision rule: on a gap-free duration-encoded table,
whenever some input row sits exactly at `end` and `start < end`, no row of
the `df_squash` output carries the timestamp `end` — the boundary row is
dropped, not truncated. -/
theorem c3_squash_end_collision {α : Type} (df : List (SRow α)) (hgf : GapFree df)
    (hpos : ∀ r ∈ df, 0 < r.delta) (s e : ℚ) (hse : s < e)
    (he : e ∈ df.map SRow.idx) :
    e ∉ (df_squash df s e).map SRow.idx := by
  obtain ⟨re, hre_mem, hre_idx⟩ := List.mem_map.mp he
  cases df with
  | nil => simp at hre_mem
  | cons r0 rest =>
    have hso := sortedIdx_of_gapFree _ hgf hpos
    have hlast_mem : (r0 :: rest).getLastD r0 ∈ r0 :: rest :=
      getLastD_mem _ _ (by simp)
    have hclamp :
        min e (((r0 :: rest).getLastD r0).idx + ((r0 :: rest).getLastD r0).delta) = e := by
      apply min_eq_left
      have h1 : re.idx ≤ ((r0 :: rest).getLastD r0).idx :=
        le_getLastD_idx _ hso re hre_mem r0
      have h2 : 0 < ((r0 :: rest).getLastD r0).delta := hpos _ hlast_mem
      rw [← hre_idx]
      linarith
    have hmid_mem : re ∈ (r0 :: rest).filter (inRangeB s e) := by
      rw [List.mem_filter]
      exact ⟨hre_mem, by simp [inRangeB, hre_idx, hse.le]⟩
    simp only [df_squash]
    rw [hclamp, if_neg (not_lt.mpr hse.le)]
    simp only [squashCore]
    cases hmid : (r0 :: rest).filter (inRangeB s e) with
    | nil =>
      rw [hmid] at hmid_mem
      simp at hmid_mem
    | cons m ms =>
      rw [hmid] at hmid_mem
      simp only [squashTail]
      have hany :
          (mkSynth ((r0 :: rest).filter fun r => decide (r.idx ≤ s)) (m :: ms) s e
            ++ m :: ms).any (fun r => decide (r.idx = e)) = true := by
        rw [List.any_eq_true]
        exact ⟨re, List.mem_append_right _ hmid_mem, by simp [hre_idx]⟩
      rw [if_pos hany]
      intro hmem
      simp only [List.mem_map, List.mem_filter, decide_eq_true_eq] at hmem
      obtain ⟨r, ⟨_, hner⟩, hidx⟩ := hmem
      exact hner hidx

/-- C3 witness: squashing the docstring table to `(16, 17)` — where a row
sits exactly at `17` — produces no row with timestamp `17`. -/
theorem c3_witness : (17 : ℚ) ∉ (df_squash exTable 16 17).map SRow.idx :=
  c3_squash_end_collision exTable
    (by norm_num [GapFree, exTable, List.chain'_cons])
    (by norm_num [exTable])
    16 17 (by norm_num)
    (by norm_num [exTable])

end Datautils

namespace Datautils

/-! ### Lookup lemmas on a sorted index -/

theorem le_getLastD_q :
    ∀ (l : List ℚ), List.Pairwise (fun a b : ℚ => a < b) l → ∀ x ∈ l, ∀ d : ℚ,
      x ≤ l.getLastD d
  | [], _, x, hx, _ => absurd hx (by simp)
  | a :: t, hso, x, hx, d => by
    rw [List.getLastD_cons]
    cases t with
    | nil =>
      simp only [List.mem_singleton] at hx
      subst hx
      simp
    | cons b t' =>
      rcases List.mem_cons.mp hx with hxa | hxt
      · subst hxa
        have hmem : (b :: t').getLastD x ∈ b :: t' := getLastD_mem _ _ (by simp)
        exact ((List.pairwise_cons.mp hso).1 _ hmem).le
      · exact le_getLastD_q (b :: t') (List.pairwise_cons.mp hso).2 x hxt a

theorem locFfill_at_head (i0 : ℚ) (t : List ℚ)
    (hso : List.Pairwise (fun a b : ℚ => a < b) (i0 :: t)) :
    locFfill (i0 :: t) i0 = some 0 := by
  have h1 : locFfill t i0 = none := by
    cases t with
    | nil => rfl
    | cons b t' =>
      have hb : i0 < b := (List.pairwise_cons.mp hso).1 b (by simp)
      simp only [locFfill, if_neg (not_le.mpr hb)]
  simp only [locFfill, h1, if_pos (le_refl i0)]

theorem locBfill_at_head (i0 : ℚ) (t : List ℚ) :
    locBfill (i0 :: t) i0 = some 0 := by
  simp [locBfill]

theorem locNearest_at_head (i0 : ℚ) (t : List ℚ)
    (hso : List.Pairwise (fun a b : ℚ => a < b) (i0 :: t)) :
    locNearest (i0 :: t) i0 = some 0 := by
  unfold locNearest
  rw [locFfill_at_head i0 t hso, locBfill_at_head]
  simp

theorem getLoc_at_head (i0 : ℚ) (t : List ℚ)
    (hso : List.Pairwise (fun a b : ℚ => a < b) (i0 :: t)) (lm : LocMethod) :
    getLoc (i0 :: t) i0 lm = some 0 := by
  cases lm with
  | ffill => exact locFfill_at_head i0 t hso
  | bfill => exact locBfill_at_head i0 t
  | nearest => exact locNearest_at_head i0 t hso

theorem getLastD_irrel {β : Type} (l : List β) (h : l ≠ []) (d d' : β) :
    l.getLastD d = l.getLastD d' := by
  cases l with
  | nil => exact absurd rfl h
  | cons x xs => rw [List.getLastD_cons, List.getLastD_cons]

theorem locFfill_at_last :
    ∀ (i0 : ℚ) (t : List ℚ), List.Pairwise (fun a b : ℚ => a < b) (i0 :: t) →
      locFfill (i0 :: t) ((i0 :: t).getLastD i0) = some ((i0 :: t).length - 1)
  | i0, [], _ => by simp [locFfill]
  | i0, b :: t', hso => by
    have hlast : (i0 :: b :: t').getLastD i0 = (b :: t').getLastD b := by
      rw [List.getLastD_cons]
      exact getLastD_irrel _ (by simp) _ _
    have hmem : (b :: t').getLastD b ∈ b :: t' := getLastD_mem _ _ (by simp)
    have hle : i0 ≤ (b :: t').getLastD b :=
      ((List.pairwise_cons.mp hso).1 _ hmem).le
    have ih := locFfill_at_last b t' (List.pairwise_cons.mp hso).2
    have hstep : locFfill (i0 :: b :: t') ((b :: t').getLastD b) =
        some (((b :: t').length - 1) + 1) := by
      rw [show locFfill (i0 :: b :: t') ((b :: t').getLastD b) =
          (if i0 ≤ (b :: t').getLastD b then
            match locFfill (b :: t') ((b :: t').getLastD b) with
            | some p => some (p + 1)
            | none => some 0
          else none) from rfl]
      rw [if_pos hle, ih]
    rw [hlast, hstep]
    simp [List.length_cons]

theorem locBfill_at_last :
    ∀ (i0 : ℚ) (t : List ℚ), List.Pairwise (fun a b : ℚ => a < b) (i0 :: t) →
      locBfill (i0 :: t) ((i0 :: t).getLastD i0) = some ((i0 :: t).length - 1)
  | i0, [], _ => by simp [locBfill]
  | i0, b :: t', hso => by
    have hlast : (i0 :: b :: t').getLastD i0 = (b :: t').getLastD b := by
      rw [List.getLastD_cons]
      exact getLastD_irrel _ (by simp) _ _
    have hmem : (b :: t').getLastD b ∈ b :: t' := getLastD_mem _ _ (by simp)
    have hlt : i0 < (b :: t').getLastD b := (List.pairwise_cons.mp hso).1 _ hmem
    have ih := locBfill_at_last b t' (List.pairwise_cons.mp hso).2
    have hstep : locBfill (i0 :: b :: t') ((b :: t').getLastD b) =
        Option.map (· + 1) (locBfill (b :: t') ((b :: t').getLastD b)) := by
      rw [show locBfill (i0 :: b :: t') ((b :: t').getLastD b) =
          (if (b :: t').getLastD b ≤ i0 then some 0
           else Option.map (· + 1) (locBfill (b :: t') ((b :: t').getLastD b))) from rfl]
      rw [if_neg (not_le.mpr hlt)]
    rw [hlast, hstep, ih]
    simp [List.length_cons]

theorem locNearest_at_last (i0 : ℚ) (t : List ℚ)
    (hso : List.Pairwise (fun a b : ℚ => a < b) (i0 :: t)) :
    locNearest (i0 :: t) ((i0 :: t).getLastD i0) = some ((i0 :: t).length - 1) := by
  unfold locNearest
  rw [locFfill_at_last i0 t hso, locBfill_at_last i0 t hso]
  simp

theorem getLoc_at_last (i0 : ℚ) (t : List ℚ)
    (hso : List.Pairwise (fun a b : ℚ => a < b) (i0 :: t)) (lm : LocMethod) :
    getLoc (i0 :: t) ((i0 :: t).getLastD i0) lm = some ((i0 :: t).length - 1) := by
  cases lm with
  | ffill => exact locFfill_at_last i0 t hso
  | bfill => exact locBfill_at_last i0 t hso
  | nearest => exact locNearest_at_last i0 t hso

theorem drop_length_sub_one {β : Type} :
    ∀ (l : List β) (d : β), l ≠ [] → l.drop (l.length - 1) = [l.getLastD d]
  | [a], d, _ => by simp
  | a :: b :: t, d, _ => by
    have ih := drop_length_sub_one (b :: t) d (by simp)
    have hlen : (a :: b :: t).length - 1 = ((b :: t).length - 1) + 1 := by
      simp [List.length_cons]
    rw [hlen, List.drop_succ_cons, ih]
    simp [List.getLastD_cons]

theorem filter_at_head {α : Type} (d0 : ℚ × α) (dt : List (ℚ × α))
    (hso : SortedFst (d0 :: dt)) :
    (d0 :: dt).filter (fun r => inWin (some d0.1) (some d0.1) r.1) = [d0] := by
  rw [List.filter_cons_of_pos (by simp [inWin])]
  rw [List.filter_eq_nil_iff.mpr]
  intro x hx
  have hlt : d0.1 < x.1 := (List.pairwise_cons.mp hso).1 x hx
  simp [inWin, not_le.mpr hlt]

theorem filter_at_last {α : Type} :
    ∀ (data : List (ℚ × α)) (d : ℚ × α), data ≠ [] → SortedFst data →
      data.filter (fun r => inWin (some (lastIdx data)) (some (lastIdx data)) r.1) =
        [data.getLastD d]
  | [x], d, _, _ => by simp [lastIdx, inWin]
  | x :: b :: t, d, _, hso => by
    have hlast : lastIdx (x :: b :: t) = lastIdx (b :: t) := lastIdx_cons_cons x b t
    have hmem0 : (List.map Prod.fst (b :: t)).getLastD 0 ∈ List.map Prod.fst (b :: t) :=
      getLastD_mem _ _ (by simp)
    obtain ⟨r, hr_mem, hr_eq⟩ := List.mem_map.mp hmem0
    have hdlt : x.1 < lastIdx (b :: t) := by
      rw [lastIdx, ← hr_eq]
      exact (List.pairwise_cons.mp hso).1 r hr_mem
    have ih := filter_at_last (b :: t) d (by simp) (List.pairwise_cons.mp hso).2
    rw [hlast, List.filter_cons_of_neg (by simp [inWin, not_le.mpr hdlt]), ih]
    simp [List.getLastD_cons]

end Datautils

namespace Datautils

/-- Evaluation of `_data_window` with `clip_window=True` once the clamped
window is known. -/
theorem _data_window_clip_eq {α : Type} (data : List (ℚ × α))
    (w : Option ℚ × Option ℚ) (m : WinMethod) (fl : Bool) (p : ℚ × ℚ)
    (hclip : clipWin (data.map Prod.fst) w = some p) :
    _data_window data w m true fl =
      if fl && (m == WinMethod.inclusive) then
        some (data.filter (fun r => inWin (some p.1) (some p.2) r.1))
      else
        match getLoc (data.map Prod.fst) p.2 (methodPair m).2 with
        | none => none
        | some q =>
          match getLoc (data.map Prod.fst) p.1 (methodPair m).1 with
          | none => none
          | some pp => some ((data.drop pp).take (q + 1 - pp)) := by
  simp only [_data_window, hclip, Option.map_some', if_true]

end Datautils

namespace Datautils

/-! ### C8 -/

/-- C8: Clip clamping: for a non-empty sorted table and a requested window
`[s, e]` lying entirely outside the data's index range, windowing with
`clip_window=True` returns exactly the nearest boundary row — the first
row when the window lies before the data, the last row when it lies after
— for every edge method and on both the float fast path and the generic
lookup path; in particular the result is never empty and contains no row
outside the original extent. -/
theorem c8_clip_clamping {α : Type} (data : List (ℚ × α)) (hne : data ≠ [])
    (hso : SortedFst data) (s e : ℚ) (hse : s ≤ e) (m : WinMethod) (fl : Bool) :
    (e < headIdx data →
      _data_window data (some s, some e) m true fl = some [data.head hne]) ∧
    (lastIdx data < s →
      _data_window data (some s, some e) m true fl =
        some [data.getLastD (data.head hne)]) := by
  cases data with
  | nil => exact absurd rfl hne
  | cons d0 dt =>
    have hidx_so :
        List.Pairwise (fun a b : ℚ => a < b) (List.map Prod.fst (d0 :: dt)) :=
      List.pairwise_map.mpr hso
    have hidx_cons : List.map Prod.fst (d0 :: dt) = d0.1 :: List.map Prod.fst dt := by
      rw [List.map_cons]
    constructor
    · intro he
      have hheadIdx : headIdx (d0 :: dt) = d0.1 := by simp [headIdx]
      rw [hheadIdx] at he
      have hclip : clipWin (List.map Prod.fst (d0 :: dt)) (some s, some e) =
          some (d0.1, d0.1) := by
        simp only [clipWin, List.map_cons, Option.getD_some]
        rw [if_pos ⟨hse.trans he.le, he.le⟩]
      rw [_data_window_clip_eq _ _ _ _ _ hclip]
      cases hfm : fl && (m == WinMethod.inclusive) with
      | true =>
        rw [if_pos rfl]
        show some (List.filter (fun r => inWin (some d0.1) (some d0.1) r.1) (d0 :: dt)) =
          some [(d0 :: dt).head hne]
        rw [filter_at_head d0 dt hso]
        rfl
      | false =>
        rw [if_neg Bool.false_ne_true]
        rw [hidx_cons] at hidx_so
        rw [hidx_cons, getLoc_at_head d0.1 _ hidx_so, getLoc_at_head d0.1 _ hidx_so]
        simp [List.take_succ_cons]
    · intro hs
      have hfirst_le : d0.1 ≤ lastIdx (d0 :: dt) := by
        rw [lastIdx]
        exact le_getLastD_q _ hidx_so d0.1 (by simp) 0
      have hlastD : (List.map Prod.fst (d0 :: dt)).getLastD d0.1 =
          lastIdx (d0 :: dt) := by
        rw [lastIdx]
        exact getLastD_irrel _ (by simp) _ _
      have hclip : clipWin (List.map Prod.fst (d0 :: dt)) (some s, some e) =
          some (lastIdx (d0 :: dt), lastIdx (d0 :: dt)) := by
        simp only [clipWin, List.map_cons, Option.getD_some]
        rw [if_neg (by
          rintro ⟨h1, -⟩
          exact absurd (lt_of_le_of_lt hfirst_le hs) (not_lt.mpr h1))]
        rw [List.getLastD_cons]
        have hlast_eq : (List.map Prod.fst dt).getLastD d0.1 = lastIdx (d0 :: dt) := by
          rw [← hlastD, hidx_cons, List.getLastD_cons]
        rw [hlast_eq]
        rw [if_pos ⟨hs.le, hs.le.trans hse⟩]
      rw [_data_window_clip_eq _ _ _ _ _ hclip]
      cases hfm : fl && (m == WinMethod.inclusive) with
      | true =>
        rw [if_pos rfl]
        show some (List.filter
            (fun r => inWin (some (lastIdx (d0 :: dt))) (some (lastIdx (d0 :: dt))) r.1)
            (d0 :: dt)) =
          some [(d0 :: dt).getLastD ((d0 :: dt).head hne)]
        rw [filter_at_last (d0 :: dt) d0 (by simp) hso]
        rfl
      | false =>
        rw [if_neg Bool.false_ne_true]
        have hloc : ∀ lm, getLoc (List.map Prod.fst (d0 :: dt))
            (lastIdx (d0 :: dt)) lm =
            some ((List.map Prod.fst (d0 :: dt)).length - 1) := by
          intro lm
          rw [← hlastD]
          rw [hidx_cons] at hidx_so ⊢
          exact getLoc_at_last d0.1 _ hidx_so lm
        rw [hloc, hloc]
        have hlen : (List.map Prod.fst (d0 :: dt)).length - 1 = (d0 :: dt).length - 1 := by
          simp
        rw [hlen]
        have hdrop := drop_length_sub_one (d0 :: dt) ((d0 :: dt).head hne) (by simp)
        have htake : ((d0 :: dt).length - 1) + 1 - ((d0 :: dt).length - 1) = 1 := by
          omega
        show some (List.take ((d0 :: dt).length - 1 + 1 - ((d0 :: dt).length - 1))
            (List.drop ((d0 :: dt).length - 1) (d0 :: dt))) =
          some [(d0 :: dt).getLastD ((d0 :: dt).head hne)]
        rw [htake, hdrop]
        rfl

/-- C8 witness: windowing `[(0,·),(10,·)]` with the entirely-left window
`(-5, -1)` under method `pre` on the generic path returns exactly the
first row. -/
theorem c8_witness :
    _data_window [((0 : ℚ), (0 : ℤ)), (10, 1)] (some (-5), some (-1))
      .pre true false = some [(0, 0)] :=
  (c8_clip_clamping [((0 : ℚ), (0 : ℤ)), (10, 1)] (by simp)
    (by norm_num [SortedFst]) (-5) (-1) (by norm_num) .pre false).1
    (by norm_num [headIdx])

end Datautils

namespace Datautils

/-! ### Sub-slice lemmas -/

theorem isSubSlice_nil {β : Type} (l : List β) : IsSubSlice [] l :=
  ⟨[], l, rfl⟩

theorem isSubSlice_take {β : Type} (l : List β) (k : Nat) :
    IsSubSlice (l.take k) l :=
  ⟨[], l.drop k, by simp⟩

theorem isSubSlice_take_drop {β : Type} (l : List β) (p k : Nat) :
    IsSubSlice ((l.drop p).take k) l :=
  ⟨l.take p, (l.drop p).drop k, by
    rw [List.append_assoc, List.take_append_drop, List.take_append_drop]⟩

theorem inWin_false_of_false_of_lt (s? e? : Option ℚ) (x y z : ℚ)
    (hx : inWin s? e? x = true) (hxy : x < y) (hyz : y < z)
    (hy : inWin s? e? y = false) : inWin s? e? z = false := by
  cases s? with
  | none =>
    cases e? with
    | none => simp [inWin] at hy
    | some e =>
      simp only [inWin, Bool.true_and, decide_eq_false_iff_not, not_le] at hy ⊢
      linarith
  | some s =>
    cases e? with
    | none =>
      simp only [inWin, Bool.and_true, decide_eq_false_iff_not, not_le] at hy
      simp only [inWin, Bool.and_true, decide_eq_true_eq] at hx
      linarith
    | some e =>
      simp only [inWin, Bool.and_eq_false_iff, decide_eq_false_iff_not, not_le] at hy
      simp only [inWin, Bool.and_eq_true, decide_eq_true_eq] at hx
      rcases hy with hy | hy
      · linarith [hx.1]
      · simp only [inWin, Bool.and_eq_false_iff, decide_eq_false_iff_not, not_le]
        right
        linarith

theorem filter_inWin_eq_takeWhile {α : Type} (s? e? : Option ℚ) :
    ∀ (d : ℚ × α) (t : List (ℚ × α)), SortedFst (d :: t) →
      inWin s? e? d.1 = true →
      t.filter (fun r => inWin s? e? r.1) = t.takeWhile (fun r => inWin s? e? r.1)
  | _, [], _, _ => rfl
  | d, y :: t', hso, hd => by
    cases hy : inWin s? e? y.1 with
    | true =>
      rw [List.filter_cons_of_pos (by simp [hy]), List.takeWhile_cons_of_pos (by simp [hy])]
      have hso' : SortedFst (y :: t') := (List.pairwise_cons.mp hso).2
      rw [filter_inWin_eq_takeWhile s? e? y t' hso' hy]
    | false =>
      rw [List.filter_cons_of_neg (by simp [hy]), List.takeWhile_cons_of_neg (by simp [hy])]
      rw [List.filter_eq_nil_iff.mpr]
      intro z hz
      have hdy : d.1 < y.1 := (List.pairwise_cons.mp hso).1 y (by simp)
      have hyz : y.1 < z.1 :=
        (List.pairwise_cons.mp (List.pairwise_cons.mp hso).2).1 z hz
      simp [inWin_false_of_false_of_lt s? e? d.1 y.1 z.1 hd hdy hyz hy]

theorem filter_inWin_isSubSlice {α : Type} (s? e? : Option ℚ) :
    ∀ (data : List (ℚ × α)), SortedFst data →
      IsSubSlice (data.filter (fun r => inWin s? e? r.1)) data
  | [], _ => isSubSlice_nil []
  | d :: t, hso => by
    cases hd : inWin s? e? d.1 with
    | true =>
      rw [List.filter_cons_of_pos (by simp [hd]), filter_inWin_eq_takeWhile s? e? d t hso hd]
      exact ⟨[], t.dropWhile (fun r => inWin s? e? r.1), by
        simp [List.takeWhile_append_dropWhile]⟩
    | false =>
      rw [List.filter_cons_of_neg (by simp [hd])]
      obtain ⟨a, b, hab⟩ :=
        filter_inWin_isSubSlice s? e? t (List.pairwise_cons.mp hso).2
      exact ⟨d :: a, b, by
        conv_lhs => rw [hab]
        simp⟩

end Datautils

namespace Datautils

/-! ### C10 -/

/-- C10: Windowing returns a contiguous untouched sub-slice: whenever
`series_window`/`df_window` (any edge method, with or without clipping, on
either index path) returns a result on a sorted table, that result is a
contiguous block of the input's rows — original order, index values and
column values preserved, no row created or modified. -/
theorem c10_window_contiguous_slice {α : Type} (data : List (ℚ × α))
    (hso : SortedFst data) (w : Option ℚ × Option ℚ) (m : WinMethod)
    (clip fl : Bool) (l : List (ℚ × α))
    (h : _data_window data w m clip fl = some l) : IsSubSlice l data := by
  simp only [_data_window] at h
  split at h
  next => exact absurd h (by simp)
  next s? e? heq =>
    split at h
    · obtain rfl : l = data.filter (fun r => inWin s? e? r.1) :=
        (Option.some_inj.mp h).symm
      exact filter_inWin_isSubSlice s? e? data hso
    · split at h
      next => exact absurd h (by simp)
      next e =>
        split at h
        next => exact absurd h (by simp)
        next q hq =>
          split at h
          next =>
            obtain rfl : l = data.take (q + 1) := (Option.some_inj.mp h).symm
            exact isSubSlice_take data (q + 1)
          next s =>
            split at h
            next => exact absurd h (by simp)
            next p hp =>
              obtain rfl : l = (data.drop p).take (q + 1 - p) :=
                (Option.some_inj.mp h).symm
              exact isSubSlice_take_drop data p (q + 1 - p)

/-- C10 witness: windowing `[(0,·),(1,·)]` to `(0, 1)` with method `pre`
on the generic path returns the whole table, a contiguous sub-slice of
itself. -/
theorem c10_witness :
    IsSubSlice ([((0 : ℚ), (0 : ℤ)), (1, 1)] : List (ℚ × ℤ))
      [((0 : ℚ), (0 : ℤ)), (1, 1)] :=
  c10_window_contiguous_slice [((0 : ℚ), (0 : ℤ)), (1, 1)]
    (by norm_num [SortedFst]) (some 0, some 1) .pre true false
    [((0 : ℚ), (0 : ℤ)), (1, 1)]
    (by norm_num [_data_window, clipWin, getLoc, methodPair, locFfill,
      List.take, List.drop])

end Datautils

namespace Datautils

/-! ### Exact-match windowing lemmas -/

theorem q_head_le (i0 : ℚ) (t : List ℚ)
    (hso : List.Pairwise (fun a b : ℚ => a < b) (i0 :: t)) :
    ∀ x ∈ i0 :: t, i0 ≤ x := by
  intro x hx
  rcases List.mem_cons.mp hx with hxa | hxt
  · exact le_of_eq hxa.symm
  · exact ((List.pairwise_cons.mp hso).1 x hxt).le

theorem bfill_take {α : Type} :
    ∀ (data : List (ℚ × α)), SortedFst data → ∀ e, e ∈ data.map Prod.fst →
      ∃ q, locBfill (data.map Prod.fst) e = some q ∧
        data.take (q + 1) = data.filter (fun r => decide (r.1 ≤ e))
  | [], _, e, he => absurd he (by simp)
  | d :: t, hso, e, he => by
    rw [List.map_cons] at he ⊢
    by_cases hde : d.1 = e
    · refine ⟨0, ?_, ?_⟩
      · simp [locBfill, hde]
      · rw [List.take_succ_cons, List.take_zero,
          List.filter_cons_of_pos (by simp [hde]),
          List.filter_eq_nil_iff.mpr]
        intro x hx
        have hlt : d.1 < x.1 := (List.pairwise_cons.mp hso).1 x hx
        simp only [decide_eq_true_eq, not_le]
        rw [← hde]
        exact hlt
    · have het : e ∈ List.map Prod.fst t := by
        rcases List.mem_cons.mp he with h | h
        · exact absurd h.symm hde
        · exact h
      obtain ⟨r, hr_mem, hr_eq⟩ := List.mem_map.mp het
      have hdlt : d.1 < e := by
        rw [← hr_eq]
        exact (List.pairwise_cons.mp hso).1 r hr_mem
      obtain ⟨q', hq', htake'⟩ :=
        bfill_take t (List.pairwise_cons.mp hso).2 e het
      refine ⟨q' + 1, ?_, ?_⟩
      · rw [show locBfill (d.1 :: List.map Prod.fst t) e =
            (if e ≤ d.1 then some 0
             else Option.map (· + 1) (locBfill (List.map Prod.fst t) e)) from rfl]
        rw [if_neg (not_le.mpr hdlt), hq']
        rfl
      · rw [List.take_succ_cons, htake',
          List.filter_cons_of_pos (by simp [hdlt.le])]

theorem slice_eq_filter {α : Type} :
    ∀ (data : List (ℚ × α)), SortedFst data → ∀ s e,
      s ∈ data.map Prod.fst → e ∈ data.map Prod.fst → s ≤ e →
      ∃ p q, locFfill (data.map Prod.fst) s = some p ∧
        locBfill (data.map Prod.fst) e = some q ∧
        (data.drop p).take (q + 1 - p) =
          data.filter (fun r => inWin (some s) (some e) r.1)
  | [], _, s, e, hs, _, _ => absurd hs (by simp)
  | d :: t, hso, s, e, hs, he, hse => by
    rw [List.map_cons] at hs he ⊢
    by_cases hds : d.1 = s
    · have hff : locFfill (d.1 :: List.map Prod.fst t) s = some 0 := by
        have hnone : locFfill (List.map Prod.fst t) s = none := by
          cases ht : List.map Prod.fst t with
          | nil => rfl
          | cons y ty =>
            have hy_mem : y ∈ List.map Prod.fst t := by rw [ht]; simp
            obtain ⟨ry, hry_mem, hry_eq⟩ := List.mem_map.mp hy_mem
            have : d.1 < y := by
              rw [← hry_eq]
              exact (List.pairwise_cons.mp hso).1 ry hry_mem
            rw [show locFfill (y :: ty) s =
                (if y ≤ s then
                  match locFfill ty s with
                  | some p => some (p + 1)
                  | none => some 0
                else none) from rfl]
            rw [if_neg (by rw [← hds]; exact not_le.mpr this)]
        rw [show locFfill (d.1 :: List.map Prod.fst t) s =
            (if d.1 ≤ s then
              match locFfill (List.map Prod.fst t) s with
              | some p => some (p + 1)
              | none => some 0
            else none) from rfl]
        rw [if_pos (le_of_eq hds), hnone]
      obtain ⟨q, hq, htake⟩ := bfill_take (d :: t) hso e (by rw [List.map_cons]; exact he)
      rw [List.map_cons] at hq
      refine ⟨0, q, hff, hq, ?_⟩
      rw [List.drop_zero, Nat.sub_zero, htake]
      apply List.filter_congr
      intro x hx
      have hsx : s ≤ x.1 := by
        rw [← hds]
        exact q_head_le d.1 (List.map Prod.fst t)
          (by rw [← List.map_cons]; exact List.pairwise_map.mpr hso) x.1
          (by rw [← List.map_cons]; exact List.mem_map_of_mem Prod.fst hx)
      simp [inWin, hsx]
    · have hst : s ∈ List.map Prod.fst t := by
        rcases List.mem_cons.mp hs with h | h
        · exact absurd h.symm hds
        · exact h
      obtain ⟨rs, hrs_mem, hrs_eq⟩ := List.mem_map.mp hst
      have hdlt_s : d.1 < s := by
        rw [← hrs_eq]
        exact (List.pairwise_cons.mp hso).1 rs hrs_mem
      have hdlt_e : d.1 < e := lt_of_lt_of_le hdlt_s hse
      have het : e ∈ List.map Prod.fst t := by
        rcases List.mem_cons.mp he with h | h
        · exact absurd h.symm (ne_of_lt hdlt_e)
        · exact h
      obtain ⟨p', q', hp', hq', hslice'⟩ :=
        slice_eq_filter t (List.pairwise_cons.mp hso).2 s e hst het hse
      refine ⟨p' + 1, q' + 1, ?_, ?_, ?_⟩
      · rw [show locFfill (d.1 :: List.map Prod.fst t) s =
            (if d.1 ≤ s then
              match locFfill (List.map Prod.fst t) s with
              | some p => some (p + 1)
              | none => some 0
            else none) from rfl]
        rw [if_pos hdlt_s.le, hp']
      · rw [show locBfill (d.1 :: List.map Prod.fst t) e =
            (if e ≤ d.1 then some 0
             else Option.map (· + 1) (locBfill (List.map Prod.fst t) e)) from rfl]
        rw [if_neg (not_le.mpr hdlt_e), hq']
        rfl
      · rw [List.drop_succ_cons,
          show q' + 1 + 1 - (p' + 1) = q' + 1 - p' from by omega, hslice',
          List.filter_cons_of_neg (by simp [inWin, not_le.mpr hdlt_s])]

theorem clipWin_noop {α : Type} (data : List (ℚ × α)) (hso : SortedFst data)
    (s e : ℚ) (hs : s ∈ data.map Prod.fst) (he : e ∈ data.map Prod.fst)
    (hse : s ≤ e) :
    clipWin (data.map Prod.fst) (some s, some e) = some (s, e) := by
  cases data with
  | nil => exact absurd hs (by simp)
  | cons d t =>
    have hidx_so : List.Pairwise (fun a b : ℚ => a < b) (List.map Prod.fst (d :: t)) :=
      List.pairwise_map.mpr hso
    rw [List.map_cons] at hidx_so hs he ⊢
    have hfs : d.1 ≤ s := q_head_le d.1 _ hidx_so s hs
    have hfe : d.1 ≤ e := q_head_le d.1 _ hidx_so e he
    have hsl : s ≤ (d.1 :: List.map Prod.fst t).getLastD d.1 :=
      le_getLastD_q _ hidx_so s hs d.1
    have hel : e ≤ (d.1 :: List.map Prod.fst t).getLastD d.1 :=
      le_getLastD_q _ hidx_so e he d.1
    simp only [clipWin, Option.getD_some]
    by_cases h1 : s ≤ d.1 ∧ e ≤ d.1
    · rw [if_pos h1]
      rw [le_antisymm h1.1 hfs, le_antisymm h1.2 hfe]
    · rw [if_neg h1]
      by_cases h2 : (d.1 :: List.map Prod.fst t).getLastD d.1 ≤ s ∧
          (d.1 :: List.map Prod.fst t).getLastD d.1 ≤ e
      · rw [if_pos h2]
        rw [le_antisymm hsl h2.1, le_antisymm hel h2.2]
      · rw [if_neg h2]
        rw [max_eq_left hfs, min_eq_left hel]

/-! ### C5 -/

/-- C5 counterexample: on the table with index `[0, 1, 2]` and the window
`(1/2, 3/2)` — whose bounds match no index value — the `inclusive`
float-index fast path returns only the row at `1`, while the generic
position-lookup path returns all three rows (the smallest containing
sub-range): the two paths do not agree. -/
theorem c5_counterexample_paths_differ :
    _data_window ([((0 : ℚ), (0 : ℤ)), (1, 1), (2, 2)])
      (some (1/2), some (3/2)) .inclusive true true = some [(1, 1)] ∧
    _data_window ([((0 : ℚ), (0 : ℤ)), (1, 1), (2, 2)])
      (some (1/2), some (3/2)) .inclusive true false =
      some [(0, 0), (1, 1), (2, 2)] := by
  constructor <;>
    norm_num [_data_window, clipWin, inWin, getLoc, methodPair, locFfill,
      locBfill, List.take, List.drop]

/-- C5 (amended): with method `inclusive`, the float fast path returns
exactly the rows whose index lies in `[start, end]`, while the generic
lookup path returns the smallest containing sub-range; the two paths
coincide — both returning exactly the rows inside `[start, end]` —
whenever `start` and `end` exactly match index values of the sorted
table. -/
theorem c5_inclusive_paths_amended {α : Type} (data : List (ℚ × α))
    (hso : SortedFst data) (s e : ℚ) (hs : s ∈ data.map Prod.fst)
    (he : e ∈ data.map Prod.fst) (hse : s ≤ e) (fl : Bool) :
    _data_window data (some s, some e) .inclusive true fl =
      some (data.filter (fun r => inWin (some s) (some e) r.1)) := by
  have hclip := clipWin_noop data hso s e hs he hse
  rw [_data_window_clip_eq _ _ _ _ _ hclip]
  cases fl with
  | true => rw [if_pos (by decide)]
  | false =>
    rw [if_neg (by decide)]
    obtain ⟨p, q, hp, hq, hslice⟩ := slice_eq_filter data hso s e hs he hse
    show (match locBfill (data.map Prod.fst) e with
          | none => none
          | some q =>
            match locFfill (data.map Prod.fst) s with
            | none => none
            | some pp => some ((data.drop pp).take (q + 1 - pp))) =
      some (data.filter (fun r => inWin (some s) (some e) r.1))
    rw [hp, hq, ← hslice]

/-- C5 witness: the amended equivalence instantiated on the table with
index `[0, 1, 2]` and the exactly-matching window `(1, 2)`, on the
generic lookup path. -/
theorem c5_witness :
    _data_window ([((0 : ℚ), (0 : ℤ)), (1, 1), (2, 2)])
      (some 1, some 2) .inclusive true false =
      some (([((0 : ℚ), (0 : ℤ)), (1, 1), (2, 2)]).filter
        (fun r => inWin (some 1) (some 2) r.1)) :=
  c5_inclusive_paths_amended [((0 : ℚ), (0 : ℤ)), (1, 1), (2, 2)]
    (by norm_num [SortedFst]) 1 2 (by norm_num) (by norm_num) (by norm_num) false

end Datautils

namespace Datautils

/-! ### Sum and structure lemmas for the squash proof -/

theorem sumDelta_append {α : Type} (a b : List (SRow α)) :
    sumDelta (a ++ b) = sumDelta a + sumDelta b := by
  simp [sumDelta]

theorem sumDelta_cons {α : Type} (r : SRow α) (t : List (SRow α)) :
    sumDelta (r :: t) = r.delta + sumDelta t := by
  simp [sumDelta]

theorem sumDelta_setLastDelta {α : Type} :
    ∀ (l : List (SRow α)) (d : ℚ) (dflt : SRow α), l ≠ [] →
      sumDelta (setLastDelta l d) = sumDelta l - (l.getLastD dflt).delta + d
  | [], _, _, h => absurd rfl h
  | [r], d, dflt, _ => by
    show sumDelta [{ r with delta := d }] = sumDelta [r] - (List.getLastD [r] dflt).delta + d
    simp [sumDelta]
  | r :: r' :: t, d, dflt, _ => by
    show sumDelta (r :: setLastDelta (r' :: t) d) =
      sumDelta (r :: r' :: t) - ((r :: r' :: t).getLastD dflt).delta + d
    rw [List.getLastD_cons dflt r (r' :: t),
      sumDelta_cons r (setLastDelta (r' :: t) d),
      sumDelta_setLastDelta (r' :: t) d r (by simp),
      sumDelta_cons r (r' :: t)]
    ring

theorem setLastDelta_append {α : Type} :
    ∀ (a : List (SRow α)) (m : SRow α) (ms : List (SRow α)) (d : ℚ),
      setLastDelta (a ++ m :: ms) d = a ++ setLastDelta (m :: ms) d
  | [], _, _, _ => rfl
  | [x], m, ms, d => rfl
  | x :: y :: a', m, ms, d => by
    show x :: setLastDelta ((y :: a') ++ m :: ms) d =
      x :: ((y :: a') ++ setLastDelta (m :: ms) d)
    rw [setLastDelta_append (y :: a') m ms d]

theorem getLastD_append_cons {α : Type} :
    ∀ (a : List (SRow α)) (m : SRow α) (ms : List (SRow α)) (dflt : SRow α),
      (a ++ m :: ms).getLastD dflt = (m :: ms).getLastD m
  | [], m, ms, dflt => getLastD_irrel _ (by simp) _ _
  | x :: a', m, ms, dflt => by
    rw [List.cons_append, List.getLastD_cons]
    exact getLastD_append_cons a' m ms x

theorem filter_ne_eq_dropLast {α : Type} :
    ∀ (l : List (SRow α)) (e : ℚ) (dflt : SRow α), SortedIdx l → l ≠ [] →
      (l.getLastD dflt).idx = e →
      l.filter (fun r => decide (¬ r.idx = e)) = l.dropLast
  | [], _, _, _, h, _ => absurd rfl h
  | [r], e, dflt, _, _, hlast => by
    have hre : r.idx = e := by simpa using hlast
    simp [hre]
  | r :: r' :: t, e, dflt, hso, _, hlast => by
    rw [List.getLastD_cons] at hlast
    have hlast_mem : (r' :: t).getLastD r ∈ r' :: t := getLastD_mem _ _ (by simp)
    have hrlt : r.idx < ((r' :: t).getLastD r).idx :=
      (List.pairwise_cons.mp hso).1 _ hlast_mem
    have hrne : ¬ r.idx = e := by
      rw [← hlast]
      exact ne_of_lt hrlt
    rw [List.filter_cons_of_pos (by simp [hrne])]
    rw [filter_ne_eq_dropLast (r' :: t) e r (List.pairwise_cons.mp hso).2 (by simp) hlast]
    rfl

theorem sumDelta_dropLast {α : Type} :
    ∀ (l : List (SRow α)) (dflt : SRow α), l ≠ [] →
      sumDelta l = sumDelta l.dropLast + (l.getLastD dflt).delta
  | [], _, h => absurd rfl h
  | [r], dflt, _ => by simp [sumDelta]
  | r :: r' :: t, dflt, _ => by
    rw [List.getLastD_cons,
      show (r :: r' :: t).dropLast = r :: (r' :: t).dropLast from rfl,
      sumDelta_cons r (r' :: t), sumDelta_cons r ((r' :: t).dropLast),
      sumDelta_dropLast (r' :: t) r (by simp)]
    ring

theorem mem_filter_inRange {α : Type} {l : List (SRow α)} {s e : ℚ} {x : SRow α}
    (hx : x ∈ l.filter (inRangeB s e)) : x ∈ l ∧ s ≤ x.idx ∧ x.idx ≤ e := by
  rw [List.mem_filter] at hx
  refine ⟨hx.1, ?_⟩
  have h := hx.2
  simpa [inRangeB] using h

/-! ### The telescoping sum of the carried-through window rows -/

/-- On a gap-free sorted table, the deltas of the rows selected by
`df[start:end]` telescope: their sum is the span from the first selected
index to the last selected index plus the last selected delta; moreover
the last selected row is either the table's own last row or is followed by
a row strictly beyond `end`. -/
theorem middle_telescope {α : Type} :
    ∀ (l : List (SRow α)), GapFree l → SortedIdx l → ∀ (s e : ℚ) (m : SRow α)
      (ms : List (SRow α)), l.filter (inRangeB s e) = m :: ms →
      sumDelta (m :: ms) =
          ((m :: ms).getLastD m).idx - m.idx + ((m :: ms).getLastD m).delta ∧
        ((∀ dflt : SRow α, (m :: ms).getLastD m = l.getLastD dflt) ∨
          e < ((m :: ms).getLastD m).idx + ((m :: ms).getLastD m).delta)
  | [], _, _, s, e, m, ms, hM => by simp at hM
  | r :: t, hgf, hso, s, e, m, ms, hM => by
    cases hr : inRangeB s e r with
    | false =>
      rw [List.filter_cons_of_neg (by simp [hr])] at hM
      have ht_ne : t ≠ [] := by
        intro h
        rw [h] at hM
        simp at hM
      obtain ⟨hsum, hlast⟩ :=
        middle_telescope t (List.Chain'.tail hgf) (List.pairwise_cons.mp hso).2
          s e m ms hM
      refine ⟨hsum, ?_⟩
      rcases hlast with hl | hl
      · left
        intro dflt
        rw [List.getLastD_cons dflt r t]
        exact hl r
      · right
        exact hl
    | true =>
      rw [List.filter_cons_of_pos (by simp [hr])] at hM
      obtain ⟨hrm, hms⟩ : r = m ∧ t.filter (inRangeB s e) = ms := by
        injection hM with h1 h2
        exact ⟨h1, h2⟩
      subst hrm
      cases t with
      | nil =>
        simp only [List.filter_nil] at hms
        subst hms
        refine ⟨by simp [sumDelta], Or.inl (fun dflt => by simp)⟩
      | cons r1 t' =>
        have hgap : r1.idx = r.idx + r.delta := (List.chain'_cons.mp hgf).1
        cases hr1 : inRangeB s e r1 with
        | false =>
          have hmrange : s ≤ r.idx ∧ r.idx ≤ e := by simpa [inRangeB] using hr
          have hmr1 : r.idx < r1.idx := (List.pairwise_cons.mp hso).1 r1 (by simp)
          have hefail : e < r1.idx := by
            have hnr1 : ¬ (s ≤ r1.idx ∧ r1.idx ≤ e) := by simpa [inRangeB] using hr1
            rcases not_and_or.mp hnr1 with h | h
            · exact absurd (le_trans hmrange.1 hmr1.le) h
            · exact not_le.mp h
          have hnil : t'.filter (inRangeB s e) = [] := by
            rw [List.filter_eq_nil_iff]
            intro x hx
            have hr1x : r1.idx < x.idx :=
              (List.pairwise_cons.mp (List.pairwise_cons.mp hso).2).1 x hx
            simp only [inRangeB, Bool.and_eq_true, decide_eq_true_eq, not_and, not_le]
            intro _
            linarith
          rw [List.filter_cons_of_neg (by simp [hr1]), hnil] at hms
          subst hms
          refine ⟨by simp [sumDelta], Or.inr ?_⟩
          rw [hgap] at hefail
          simpa using hefail
        | true =>
          rw [List.filter_cons_of_pos (by simp [hr1])] at hms
          obtain ⟨hsum, hlast⟩ :=
            middle_telescope (r1 :: t') (List.Chain'.tail hgf)
              (List.pairwise_cons.mp hso).2 s e r1 (t'.filter (inRangeB s e))
              (by rw [List.filter_cons_of_pos (by simp [hr1])])
          subst hms
          have hL : ((r :: r1 :: t'.filter (inRangeB s e)).getLastD r) =
              ((r1 :: t'.filter (inRangeB s e)).getLastD r1) := by
            rw [List.getLastD_cons]
            exact getLastD_irrel _ (by simp) _ _
          constructor
          · rw [hL, sumDelta_cons, hsum, hgap]
            ring
          · rcases hlast with hl | hl
            · left
              intro dflt
              rw [hL]
              exact (hl r).trans (List.getLastD_cons dflt r (r1 :: t')).symm
            · right
              rw [hL]
              exact hl

end Datautils

namespace Datautils

/-- Time conservation of the squash body: on a gap-free, positive-delta
table whose first index is at or before `start`, with
`start ≤ end ≤ last_index + last_delta`, the output deltas of
`squashCore` sum exactly to `end - start`. -/
theorem squashCore_sum {α : Type} (r0 : SRow α) (rest : List (SRow α))
    (hgf : GapFree (r0 :: rest)) (hpos : ∀ r ∈ r0 :: rest, 0 < r.delta)
    (s e : ℚ) (h1 : r0.idx ≤ s) (h2 : s ≤ e)
    (h3 : e ≤ ((r0 :: rest).getLastD r0).idx + ((r0 :: rest).getLastD r0).delta) :
    sumDelta (squashCore (r0 :: rest) s e) = e - s := by
  have hso := sortedIdx_of_gapFree _ hgf hpos
  have hprev_ne : (r0 :: rest).filter (fun r => decide (r.idx ≤ s)) ≠ [] := by
    intro h
    have hmem : r0 ∈ (r0 :: rest).filter (fun r => decide (r.idx ≤ s)) :=
      List.mem_filter.mpr ⟨by simp, by simpa using h1⟩
    rw [h] at hmem
    simp at hmem
  obtain ⟨pr, hpr⟩ : ∃ pr,
      ((r0 :: rest).filter (fun r => decide (r.idx ≤ s))).getLast? = some pr := by
    cases hlp : ((r0 :: rest).filter (fun r => decide (r.idx ≤ s))).getLast? with
    | none => exact absurd (List.getLast?_eq_none.mp hlp) hprev_ne
    | some pr => exact ⟨pr, rfl⟩
  have hMso : SortedIdx ((r0 :: rest).filter (inRangeB s e)) :=
    List.Pairwise.sublist (List.filter_sublist _) hso
  simp only [squashCore]
  by_cases hA : ∃ x ∈ (r0 :: rest).filter (inRangeB s e), x.idx = s
  · -- a row sits exactly at `start`: no synthetic row
    obtain ⟨rs, hrs_mem, hrs_idx⟩ := hA
    have hsynth : mkSynth ((r0 :: rest).filter (fun r => decide (r.idx ≤ s)))
        ((r0 :: rest).filter (inRangeB s e)) s e = [] := by
      simp only [mkSynth, hpr]
      rw [if_pos (List.any_eq_true.mpr ⟨rs, hrs_mem, by simp [hrs_idx]⟩)]
    cases hmid : (r0 :: rest).filter (inRangeB s e) with
    | nil =>
      rw [hmid] at hrs_mem
      simp at hrs_mem
    | cons m ms =>
      rw [hmid] at hsynth hrs_mem hMso
      rw [hsynth]
      simp only [squashTail, List.nil_append]
      have hm_mid : m ∈ (r0 :: rest).filter (inRangeB s e) := by
        rw [hmid]
        simp
      have hm_range := mem_filter_inRange hm_mid
      have hm_idx : m.idx = s := by
        have h_le : m.idx ≤ rs.idx := by
          rcases List.mem_cons.mp hrs_mem with h | h
          · rw [h]
          · exact ((List.pairwise_cons.mp hMso).1 rs h).le
        exact le_antisymm (hrs_idx ▸ h_le) hm_range.2.1
      obtain ⟨hsum, hlastd⟩ := middle_telescope (r0 :: rest) hgf hso s e m ms hmid
      have hLe_mid : (m :: ms).getLastD m ∈ (r0 :: rest).filter (inRangeB s e) := by
        rw [hmid]
        exact getLastD_mem _ _ (by simp)
      have hLe_range := mem_filter_inRange hLe_mid
      have hcap : e - ((m :: ms).getLastD m).idx ≤ ((m :: ms).getLastD m).delta := by
        rcases hlastd with hl | hl
        · rw [← hl r0] at h3
          linarith
        · linarith
      by_cases hE : ∃ x ∈ m :: ms, x.idx = e
      · obtain ⟨re', hre'_mem, hre'_idx⟩ := hE
        rw [if_pos (List.any_eq_true.mpr ⟨re', hre'_mem, by simp [hre'_idx]⟩)]
        have hLe_idx : ((m :: ms).getLastD m).idx = e := by
          have h_le : re'.idx ≤ ((m :: ms).getLastD m).idx :=
            le_getLastD_idx _ hMso re' hre'_mem m
          exact le_antisymm hLe_range.2.2 (hre'_idx ▸ h_le)
        rw [filter_ne_eq_dropLast (m :: ms) e m hMso (by simp) hLe_idx]
        have hdrop := sumDelta_dropLast (m :: ms) m (by simp)
        rw [hm_idx] at hsum
        rw [hLe_idx] at hsum
        linarith
      · rw [if_neg (by
          rw [List.any_eq_true]
          rintro ⟨x, hx, hxe⟩
          exact hE ⟨x, hx, by simpa using hxe⟩)]
        rw [sumDelta_setLastDelta (m :: ms) _ m (by simp)]
        rw [min_eq_left hcap]
        rw [hm_idx] at hsum
        rw [hsum]
        ring
  · -- no row at `start`: a synthetic boundary row is emitted
    have hsynth : mkSynth ((r0 :: rest).filter (fun r => decide (r.idx ≤ s)))
        ((r0 :: rest).filter (inRangeB s e)) s e =
        [{ idx := s
           delta := min ((((r0 :: rest).filter (inRangeB s e)).headD
             { idx := e, delta := 0, val := pr.val }).idx - s) (e - s)
           val := pr.val }] := by
      simp only [mkSynth, hpr]
      rw [if_neg (by
        rw [List.any_eq_true]
        rintro ⟨x, hx, hxe⟩
        exact hA ⟨x, hx, by simpa using hxe⟩)]
    cases hmid : (r0 :: rest).filter (inRangeB s e) with
    | nil =>
      rw [hmid] at hsynth
      rw [hsynth]
      simp only [squashTail, List.headD_nil]
      simp [sumDelta]
    | cons m ms =>
      rw [hmid] at hsynth hMso
      rw [hsynth]
      simp only [squashTail, List.headD_cons]
      have hm_mid : m ∈ (r0 :: rest).filter (inRangeB s e) := by
        rw [hmid]
        simp
      have hm_range := mem_filter_inRange hm_mid
      have hm_gt_s : s < m.idx :=
        lt_of_le_of_ne hm_range.2.1 (fun h => hA ⟨m, hm_mid, h.symm⟩)
      have hs_lt_e : s < e := lt_of_lt_of_le hm_gt_s hm_range.2.2
      have hminsyn : min (m.idx - s) (e - s) = m.idx - s :=
        min_eq_left (by linarith [hm_range.2.2])
      obtain ⟨hsum, hlastd⟩ := middle_telescope (r0 :: rest) hgf hso s e m ms hmid
      have hLe_mid : (m :: ms).getLastD m ∈ (r0 :: rest).filter (inRangeB s e) := by
        rw [hmid]
        exact getLastD_mem _ _ (by simp)
      have hLe_range := mem_filter_inRange hLe_mid
      have hcap : e - ((m :: ms).getLastD m).idx ≤ ((m :: ms).getLastD m).delta := by
        rcases hlastd with hl | hl
        · rw [← hl r0] at h3
          linarith
        · linarith
      rw [hminsyn]
      by_cases hE : ∃ x ∈ m :: ms, x.idx = e
      · obtain ⟨re', hre'_mem, hre'_idx⟩ := hE
        rw [if_pos (List.any_eq_true.mpr
          ⟨re', List.mem_append_right _ hre'_mem, by simp [hre'_idx]⟩)]
        have hLe_idx : ((m :: ms).getLastD m).idx = e := by
          have h_le : re'.idx ≤ ((m :: ms).getLastD m).idx :=
            le_getLastD_idx _ hMso re' hre'_mem m
          exact le_antisymm hLe_range.2.2 (hre'_idx ▸ h_le)
        rw [List.singleton_append,
          List.filter_cons_of_pos (by simp [hs_lt_e.ne]),
          filter_ne_eq_dropLast (m :: ms) e m hMso (by simp) hLe_idx,
          sumDelta_cons]
        have hrec : ({ idx := s, delta := m.idx - s, val := pr.val } : SRow α).delta =
            m.idx - s := rfl
        rw [hrec]
        have hdrop := sumDelta_dropLast (m :: ms) m (by simp)
        rw [hLe_idx] at hsum
        linarith
      · rw [if_neg (by
          rw [List.any_eq_true]
          rintro ⟨x, hx, hxe⟩
          rw [List.singleton_append, List.mem_cons] at hx
          rcases hx with h | h
          · rw [h] at hxe
            exact absurd (by simpa using hxe) hs_lt_e.ne
          · exact hE ⟨x, h, by simpa using hxe⟩)]
        rw [getLastD_append_cons _ m ms, setLastDelta_append _ m ms, sumDelta_append,
          sumDelta_setLastDelta (m :: ms) _ m (by simp), min_eq_left hcap]
        have hrec : sumDelta [({ idx := s, delta := m.idx - s, val := pr.val } : SRow α)] =
            m.idx - s := by
          simp [sumDelta]
        rw [hrec, hsum]
        ring

/-! ### C1 -/

/-- C1: Squash time-conservation: for every gap-free duration-encoded
table (positive durations, as produced by event-delta encoding) and every
window with `first_index ≤ start ≤ end ≤ last_index + last_delta`, the
sum of the `delta` column over the rows returned by `df_squash` equals
exactly `end - start`. -/
theorem c1_squash_time_conservation {α : Type} (df : List (SRow α))
    (hgf : GapFree df) (hpos : ∀ r ∈ df, 0 < r.delta) (hne : df ≠ [])
    (s e : ℚ) (h1 : (df.head hne).idx ≤ s) (h2 : s ≤ e)
    (h3 : e ≤ (df.getLastD (df.head hne)).idx + (df.getLastD (df.head hne)).delta) :
    sumDelta (df_squash df s e) = e - s := by
  cases df with
  | nil => exact absurd rfl hne
  | cons r0 rest =>
    simp only [List.head_cons] at h1 h3
    simp only [df_squash]
    rw [min_eq_left h3, if_neg (not_lt.mpr h2)]
    exact squashCore_sum r0 rest hgf hpos s e h1 h2 h3

/-- C1 witness: on the docstring table, squashing to `(16.5, 17.5)`
conserves exactly one unit of time. -/
theorem c1_witness : sumDelta (df_squash exTable (33/2) (35/2)) = 35/2 - 33/2 :=
  c1_squash_time_conservation exTable
    (by norm_num [GapFree, exTable, List.chain'_cons])
    (by norm_num [exTable])
    (by simp [exTable])
    (33/2) (35/2)
    (by norm_num [exTable])
    (by norm_num)
    (by norm_num [exTable])

end Datautils
